import Mathlib

/-! Shallow embedding of `dogs_of_the_dow.py`, a single-file "Dogs of the Dow"
annual rebalancing bot.

External collaborators (yfinance market data, the Alpaca broker client,
the wall clock) are modelled as explicit oracle parameters:

* `yieldInfo : Symbol → Option ℚ` models `yf.Ticker(t).info.get("dividendYield")`,
  with `none` covering both a raised exception and a missing/falsy value
  (the source collapses both to `0.0` via `or 0.0` / the `except` branch);
* `price : Symbol → Option ℚ` models `get_latest_price` (which returns
  `None` on an empty frame or an exception);
* `positionsRaw : Option (List (Symbol × Option ℤ))` models
  `api.list_positions()`: `none` is a listing failure, and a `none` quantity
  is a `p.qty` string that `int(...)` fails to convert;
* `submitOk : Symbol → ℤ → Side → Bool` models whether
  `api.submit_order(...)` succeeds or raises (the exception is caught inside
  `place_order`).

Dollar amounts, yields and prices are ℚ; share quantities are ℤ.
A `rebalance` run is embedded as the trace of externally visible events it
performs, in source execution order.
-/

namespace DogsOfTheDow

abbrev Symbol := String

/-- Config constant `TOTAL_PORTFOLIO_VALUE = 10_000` (USD). -/
def TOTAL_PORTFOLIO_VALUE : ℚ := 10000

/-- Config constant `REBALANCE_MONTH = 1` (January). -/
def REBALANCE_MONTH : ℕ := 1

/-- Config constant `REBALANCE_DAY_WINDOW = 5` (Jan 1 to Jan 5). -/
def REBALANCE_DAY_WINDOW : ℕ := 5

/-- Config constant `FORCE_REBALANCE_ON_STARTUP = True` in the shipped CONFIG. -/
def FORCE_REBALANCE_ON_STARTUP : Bool := true

/-- The hardcoded `DOW_30` universe. -/
def DOW_30 : List Symbol :=
  ["AAPL", "AMGN", "AXP", "BA", "CAT",
   "CRM", "CSCO", "CVX", "DIS", "DOW",
   "GS", "HD", "HON", "IBM", "INTC",
   "JNJ", "JPM", "KO", "MCD", "MMM",
   "MRK", "MSFT", "NKE", "PG", "TRV",
   "UNH", "V", "VZ", "WBA", "WMT"]

/-- Function `get_dividend_yields(tickers)`: for each ticker, the fetched yield, with a
lookup failure or missing value replaced by `0.0`.  The Python dict is built by
inserting the tickers in order, so (for duplicate-free tickers) its `.items()`
is this association list. -/
def get_dividend_yields (yieldInfo : Symbol → Option ℚ) (tickers : List Symbol) :
    List (Symbol × ℚ) :=
  tickers.map (fun t => (t, (yieldInfo t).getD 0))

/-- The ranking `sorted(yields.items(), key=lambda x: x[1], reverse=True)`:
Python's `sorted` is a stable sort, and with `reverse=True` elements with equal
keys keep their original relative order, which is exactly `mergeSort` with the
comparison "my key is ≥ yours". -/
def rankedByYield (yieldInfo : Symbol → Option ℚ) (tickers : List Symbol) :
    List (Symbol × ℚ) :=
  (get_dividend_yields yieldInfo tickers).mergeSort
    (fun a b => decide (b.2 ≤ a.2))

/-- Function `get_dogs(n)`: the first `n` tickers of the yield-descending ranking.
The source fixes `tickers = DOW_30`; it is a parameter here so the universe
shape can be varied in theorems, as in the spec's scenarios. -/
def get_dogs (yieldInfo : Symbol → Option ℚ) (n : ℕ) (tickers : List Symbol) :
    List Symbol :=
  ((rankedByYield yieldInfo tickers).take n).map Prod.fst

/-- Function `get_all_positions()`: `{p.symbol: int(p.qty) for p in api.list_positions()}`
with the whole call wrapped in `try/except` returning `{}`.  A listing failure
(`raw = none`) or any single quantity failing `int(...)` conversion (a `none`
entry) makes the entire comprehension raise, so the whole map degrades to `{}`. -/
def get_all_positions (raw : Option (List (Symbol × Option ℤ))) :
    List (Symbol × ℤ) :=
  match raw with
  | none => []
  | some ps =>
    if ps.all (fun p => p.2.isSome) then
      ps.filterMap (fun p => p.2.map (fun q => (p.1, q)))
    else []

inductive Side
  | buy
  | sell
deriving DecidableEq, Repr

/-- An order intent: the `(symbol, qty, side)` triple passed to `place_order`. -/
structure Intent where
  symbol : Symbol
  qty : ℤ
  side : Side
deriving DecidableEq, Repr

/-- Function `place_order(symbol, qty, side)`: `none` means the quantity gate
(`qty < 1`) dropped the order before any broker call; `some ok` means the
order was submitted and `ok` tells whether the broker accepted it (the
failure branch is the caught exception, which never escapes). -/
def place_order (submitOk : Symbol → ℤ → Side → Bool) (symbol : Symbol)
    (qty : ℤ) (side : Side) : Option Bool :=
  if qty < 1 then none
  else some (submitOk symbol qty side)

/-- Which loop of `rebalance` an order attempt came from. -/
inductive Phase
  | divest
  | acquire
deriving DecidableEq, Repr

/-- Externally visible events of one `rebalance()` run, in execution order. -/
inductive Event
  | selectDogs (dogs : List Symbol)
  | readPositions (isRefresh : Bool) (pos : List (Symbol × ℤ))
  | orderAttempt (phase : Phase) (intent : Intent) (submitted : Bool)
      (succeeded : Bool)
  | settlePause
  | runComplete
deriving DecidableEq, Repr

/-- The trace event of one `place_order` call. -/
def orderEvent (submitOk : Symbol → ℤ → Side → Bool) (phase : Phase)
    (i : Intent) : Event :=
  match place_order submitOk i.symbol i.qty i.side with
  | none => .orderAttempt phase i false false
  | some ok => .orderAttempt phase i true ok

/-- Step 1 of `rebalance`: one sell intent, for the full held quantity, per
currently held symbol not in the Dogs list. -/
def divestIntents (dogs : List Symbol) (positions : List (Symbol × ℤ)) :
    List Intent :=
  positions.filterMap (fun p =>
    if p.1 ∈ dogs then none else some ⟨p.1, p.2, Side.sell⟩)

/-- Association-list lookup standing for `current_positions.get(ticker, 0)`. -/
def posQty (positions : List (Symbol × ℤ)) (ticker : Symbol) : ℤ :=
  ((positions.find? (fun p => p.1 = ticker)).map Prod.snd).getD 0

/-- Step 2 of `rebalance`, for one Dog: if the price is unavailable the symbol
is skipped (`none`); otherwise `target_shares = int(target_per_stock // price)`
(floor division), `diff = target_shares - current_qty`, and a positive diff is
a buy intent, a negative diff a sell intent for `abs(diff)`, zero no intent. -/
def acquisitionPlan (price : Symbol → Option ℚ) (target_per_stock : ℚ)
    (positions : List (Symbol × ℤ)) (ticker : Symbol) : Option Intent :=
  match price ticker with
  | none => none
  | some p =>
    let target_shares : ℤ := ⌊target_per_stock / p⌋
    let current_qty : ℤ := posQty positions ticker
    let diff : ℤ := target_shares - current_qty
    if diff > 0 then some ⟨ticker, diff, Side.buy⟩
    else if diff < 0 then some ⟨ticker, -diff, Side.sell⟩
    else none

/-- All oracle inputs of one `rebalance()` run. -/
structure BrokerEnv where
  yieldInfo : Symbol → Option ℚ
  price : Symbol → Option ℚ
  positionsRaw1 : Option (List (Symbol × Option ℤ))
  positionsRaw2 : Option (List (Symbol × Option ℤ))
  submitOk : Symbol → ℤ → Side → Bool

/-- The Dogs list a run works with: `dogs = get_dogs(n=10)` over `DOW_30`. -/
def runDogs (env : BrokerEnv) : List Symbol :=
  get_dogs env.yieldInfo 10 DOW_30

/-- The per-Dog dollar target `target_per_stock = TOTAL_PORTFOLIO_VALUE / len(dogs)`. -/
def target_per_stock (dogs : List Symbol) : ℚ :=
  TOTAL_PORTFOLIO_VALUE / (dogs.length : ℚ)

/-- Function `rebalance()` as its event trace, in source order: select the Dogs, read
positions, attempt every divestment intent, pause 5 s iff the divestment loop
ran for at least one holding (`sold_any`), re-read positions, attempt every
acquisition intent, and complete. -/
def rebalance (env : BrokerEnv) : List Event :=
  let dogs := runDogs env
  let tps := target_per_stock dogs
  let pos1 := get_all_positions env.positionsRaw1
  let divest := divestIntents dogs pos1
  let sold_any := ¬ divest = []
  let pos2 := get_all_positions env.positionsRaw2
  let acquire := dogs.filterMap (acquisitionPlan env.price tps pos2)
  [Event.selectDogs dogs, Event.readPositions false pos1]
    ++ divest.map (orderEvent env.submitOk Phase.divest)
    ++ (if sold_any then [Event.settlePause] else [])
    ++ [Event.readPositions true pos2]
    ++ acquire.map (orderEvent env.submitOk Phase.acquire)
    ++ [Event.runComplete]

/-- A calendar date as `datetime.now()` supplies it to the scheduler. -/
structure Date where
  year : ℤ
  month : ℕ
  day : ℕ
deriving DecidableEq, Repr

/-- Predicate `is_rebalance_day()`: month is the rebalance month and the day of month is
within `[1, REBALANCE_DAY_WINDOW]`. -/
def is_rebalance_day (d : Date) : Bool :=
  decide (d.month = REBALANCE_MONTH) && decide (1 ≤ d.day)
    && decide (d.day ≤ REBALANCE_DAY_WINDOW)

/-- The scheduling loop of `main`, one iteration per poll date: trigger a
rebalance when `is_rebalance_day() and last_rebalance_year != current_year`,
then set `last_rebalance_year = current_year`.  Returns the years at which
rebalances were triggered, in order. -/
def schedRun (last : Option ℤ) : List Date → List ℤ
  | [] => []
  | d :: ds =>
    if is_rebalance_day d = true ∧ last ≠ some d.year then
      d.year :: schedRun (some d.year) ds
    else
      schedRun last ds

/-- Function `main` after a successful connection check: `last_rebalance_year = None`;
if the force flag is set, rebalance immediately and set
`last_rebalance_year` to the startup year; then run the scheduling loop.
Returns the years of all executed rebalances, the forced one included. -/
def mainTriggers (force : Bool) (startDate : Date) (polls : List Date) :
    List ℤ :=
  if force then startDate.year :: schedRun (some startDate.year) polls
  else schedRun none polls

/-- The order attempts of a trace, with their phase and whether they passed
the quantity gate and reached the broker. -/
def attempts (tr : List Event) : List (Phase × Intent × Bool) :=
  tr.filterMap (fun e =>
    match e with
    | .orderAttempt ph i sub _ => some (ph, i, sub)
    | _ => none)

/-- A trivial environment: every lookup fails, every submission succeeds. -/
def envTrivial : BrokerEnv :=
  { yieldInfo := fun _ => none
    price := fun _ => none
    positionsRaw1 := none
    positionsRaw2 := none
    submitOk := fun _ _ _ => true }

/-- An environment in which every yield is 1, every price is 40 and the
account is empty. -/
def envFlat : BrokerEnv :=
  { yieldInfo := fun _ => some 1
    price := fun _ => some 40
    positionsRaw1 := some []
    positionsRaw2 := some []
    submitOk := fun _ _ _ => true }

def yiScenarioA : Symbol → Option ℚ
  | "X" => some (5/100)
  | "Y" => some (3/100)
  | "Z" => some (3/100)
  | _ => none

/-- Execution-phase rank of an event inside one run, in source order. -/
def eventRank : Event → ℕ
  | .selectDogs _ => 0
  | .readPositions false _ => 1
  | .orderAttempt .divest _ _ _ => 2
  | .settlePause => 3
  | .readPositions true _ => 4
  | .orderAttempt .acquire _ _ _ => 5
  | .runComplete => 6

def divestEvents (env : BrokerEnv) : List Event :=
  (divestIntents (runDogs env) (get_all_positions env.positionsRaw1)).map
    (orderEvent env.submitOk Phase.divest)

def pauseEvents (env : BrokerEnv) : List Event :=
  if ¬ divestIntents (runDogs env) (get_all_positions env.positionsRaw1) = []
  then [Event.settlePause] else []

def acquireEvents (env : BrokerEnv) : List Event :=
  ((runDogs env).filterMap
    (acquisitionPlan env.price (target_per_stock (runDogs env))
      (get_all_positions env.positionsRaw2))).map
    (orderEvent env.submitOk Phase.acquire)

/-- An account holding a zero-quantity non-Dog position: the divestment loop
runs (setting `sold_any`), but the only divestment intent has quantity 0 and
is dropped at the `place_order` gate, so nothing is submitted. -/
def envLameDuck : BrokerEnv :=
  { yieldInfo := fun t => some (if t = "AAPL" then 0 else 1)
    price := fun _ => none
    positionsRaw1 := some [("AAPL", some 0)]
    positionsRaw2 := some []
    submitOk := fun _ _ _ => true }


/-- An account holding five AAPL shares while AAPL has the only zero yield,
so it drops out of the Dogs list. -/
def envHoldsAAPL : BrokerEnv :=
  { yieldInfo := fun t => some (if t = "AAPL" then 0 else 1)
    price := fun _ => none
    positionsRaw1 := some [("AAPL", some 5)]
    positionsRaw2 := some []
    submitOk := fun _ _ _ => true }

/-! General lemmas about the embedded operations -/

lemma runDogs_length (env : BrokerEnv) : (runDogs env).length = 10 := by
  simp [runDogs, get_dogs, rankedByYield, get_dividend_yields]
  decide

lemma acquisitionPlan_some {price : Symbol → Option ℚ} {tps : ℚ}
    {pos : List (Symbol × ℤ)} {t : Symbol} {i : Intent}
    (h : acquisitionPlan price tps pos t = some i) :
    i.symbol = t ∧ 0 < i.qty := by
  unfold acquisitionPlan at h
  cases hp : price t with
  | none => simp [hp] at h
  | some p =>
    simp only [hp] at h
    split at h
    · cases h; constructor <;> simp_all
    · split at h
      · cases h
        refine ⟨rfl, ?_⟩
        simp only
        omega
      · cases h

lemma orderEvent_inv {ok : Symbol → ℤ → Side → Bool} {ph ph' : Phase}
    {i i' : Intent} {sub suc : Bool}
    (h : orderEvent ok ph i = Event.orderAttempt ph' i' sub suc) :
    ph' = ph ∧ i' = i ∧ (sub = true → 1 ≤ i.qty) := by
  unfold orderEvent place_order at h
  by_cases hq : i.qty < 1
  · simp only [if_pos hq] at h
    cases h
    exact ⟨rfl, rfl, by simp⟩
  · simp only [if_neg hq] at h
    cases h
    exact ⟨rfl, rfl, fun _ => by omega⟩

lemma mem_pauseList {e : Event} {c : Prop} [Decidable c]
    (h : e ∈ (if c then [Event.settlePause] else [])) :
    e = Event.settlePause := by
  split at h <;> simp_all

/-- Any order attempt in a run's trace comes from either the divestment pass
(with its intent in `divestIntents`) or the acquisition pass (with its intent
produced by `acquisitionPlan` on some Dog). -/
lemma orderAttempt_mem_rebalance {env : BrokerEnv} {ph : Phase} {i : Intent}
    {sub suc : Bool}
    (h : Event.orderAttempt ph i sub suc ∈ rebalance env) :
    (∃ j ∈ divestIntents (runDogs env) (get_all_positions env.positionsRaw1),
      orderEvent env.submitOk Phase.divest j
        = Event.orderAttempt ph i sub suc)
    ∨ (∃ j ∈ (runDogs env).filterMap
        (acquisitionPlan env.price (target_per_stock (runDogs env))
          (get_all_positions env.positionsRaw2)),
      orderEvent env.submitOk Phase.acquire j
        = Event.orderAttempt ph i sub suc) := by
  unfold rebalance at h
  simp only [List.mem_append, List.mem_cons, List.mem_singleton,
    List.mem_map, List.not_mem_nil, or_false, or_assoc] at h
  rcases h with h | h | ⟨j, hj, he⟩ | h | h | ⟨j, hj, he⟩ | h
  · cases h
  · cases h
  · exact Or.inl ⟨j, hj, he⟩
  · cases mem_pauseList h
  · cases h
  · exact Or.inr ⟨j, hj, he⟩
  · cases h

lemma divestIntents_mem {dogs : List Symbol} {positions : List (Symbol × ℤ)}
    {i : Intent} (h : i ∈ divestIntents dogs positions) :
    (i.symbol, i.qty) ∈ positions ∧ i.symbol ∉ dogs ∧ i.side = Side.sell := by
  unfold divestIntents at h
  rw [List.mem_filterMap] at h
  obtain ⟨p, hp, he⟩ := h
  by_cases hd : p.1 ∈ dogs
  · simp [hd] at he
  · simp only [hd, if_neg] at he
    cases he
    exact ⟨hp, hd, rfl⟩

lemma divestIntents_filter_nil {dogs : List Symbol}
    {positions : List (Symbol × ℤ)} {s : Symbol}
    (h : s ∉ positions.map Prod.fst) :
    (divestIntents dogs positions).filter (fun i => i.symbol = s) = [] := by
  rw [List.filter_eq_nil_iff]
  intro i hi
  have := (divestIntents_mem hi).1
  have hs : i.symbol ∈ positions.map Prod.fst :=
    List.mem_map.mpr ⟨(i.symbol, i.qty), this, rfl⟩
  simp only [decide_eq_true_eq]
  intro hcontra
  exact h (hcontra ▸ hs)

lemma divestIntents_filter_eq {dogs : List Symbol}
    {positions : List (Symbol × ℤ)} {s : Symbol} {q : ℤ}
    (hmem : (s, q) ∈ positions) (hnotdog : s ∉ dogs)
    (hnd : (positions.map Prod.fst).Nodup) :
    (divestIntents dogs positions).filter (fun i => i.symbol = s)
      = [⟨s, q, Side.sell⟩] := by
  induction positions with
  | nil => cases hmem
  | cons a rest ih =>
    simp only [List.map_cons, List.nodup_cons] at hnd
    rcases List.mem_cons.mp hmem with heq | htail
    · subst heq
      have hrest : s ∉ rest.map Prod.fst := hnd.1
      rw [show divestIntents dogs ((s, q) :: rest)
          = ⟨s, q, Side.sell⟩ :: divestIntents dogs rest from by
        simp [divestIntents, hnotdog]]
      rw [List.filter_cons]
      simp [divestIntents_filter_nil hrest]
    · have ha : a.1 ≠ s := by
        intro hcontra
        exact hnd.1 (hcontra ▸ List.mem_map.mpr ⟨(s, q), htail, rfl⟩)
      by_cases hd : a.1 ∈ dogs
      · rw [show divestIntents dogs (a :: rest) = divestIntents dogs rest from by
          simp [divestIntents, hd]]
        exact ih htail hnd.2
      · rw [show divestIntents dogs (a :: rest)
            = ⟨a.1, a.2, Side.sell⟩ :: divestIntents dogs rest from by
          simp [divestIntents, hd]]
        rw [List.filter_cons]
        simp only [decide_eq_true_eq]
        rw [if_neg ha]
        exact ih htail hnd.2

lemma attempts_append (a b : List Event) :
    attempts (a ++ b) = attempts a ++ attempts b :=
  List.filterMap_append a b _

lemma attempts_map_orderEvent (ok : Symbol → ℤ → Side → Bool) (ph : Phase)
    (l : List Intent) :
    attempts (l.map (orderEvent ok ph))
      = l.map (fun i => (ph, i, !decide (i.qty < 1))) := by
  induction l with
  | nil => rfl
  | cons a l ih =>
    have hhead : attempts [orderEvent ok ph a]
        = [(ph, a, !decide (a.qty < 1))] := by
      unfold attempts orderEvent place_order
      by_cases hq : a.qty < 1
      · simp [hq]
      · simp [hq]
    calc attempts (List.map (orderEvent ok ph) (a :: l))
        = attempts ([orderEvent ok ph a]
            ++ List.map (orderEvent ok ph) l) := rfl
      _ = attempts [orderEvent ok ph a]
            ++ attempts (List.map (orderEvent ok ph) l) := attempts_append _ _
      _ = [(ph, a, !decide (a.qty < 1))]
            ++ List.map (fun i => (ph, i, !decide (i.qty < 1))) l := by
            rw [hhead, ih]
      _ = List.map (fun i => (ph, i, !decide (i.qty < 1))) (a :: l) := rfl

lemma attempts_rebalance (env : BrokerEnv) :
    attempts (rebalance env) =
      (divestIntents (runDogs env) (get_all_positions env.positionsRaw1)).map
          (fun i => (Phase.divest, i, !decide (i.qty < 1)))
        ++ ((runDogs env).filterMap
            (acquisitionPlan env.price (target_per_stock (runDogs env))
              (get_all_positions env.positionsRaw2))).map
          (fun i => (Phase.acquire, i, !decide (i.qty < 1))) := by
  unfold rebalance
  rw [show [Event.selectDogs (runDogs env),
      Event.readPositions false (get_all_positions env.positionsRaw1)]
      ++ (divestIntents (runDogs env)
          (get_all_positions env.positionsRaw1)).map
            (orderEvent env.submitOk Phase.divest)
      ++ (if ¬ divestIntents (runDogs env)
            (get_all_positions env.positionsRaw1) = []
          then [Event.settlePause] else [])
      ++ [Event.readPositions true (get_all_positions env.positionsRaw2)]
      ++ ((runDogs env).filterMap
          (acquisitionPlan env.price (target_per_stock (runDogs env))
            (get_all_positions env.positionsRaw2))).map
            (orderEvent env.submitOk Phase.acquire)
      ++ [Event.runComplete] = [Event.selectDogs (runDogs env),
      Event.readPositions false (get_all_positions env.positionsRaw1)]
      ++ ((divestIntents (runDogs env)
          (get_all_positions env.positionsRaw1)).map
            (orderEvent env.submitOk Phase.divest)
      ++ ((if ¬ divestIntents (runDogs env)
            (get_all_positions env.positionsRaw1) = []
          then [Event.settlePause] else [])
      ++ ([Event.readPositions true (get_all_positions env.positionsRaw2)]
      ++ (((runDogs env).filterMap
          (acquisitionPlan env.price (target_per_stock (runDogs env))
            (get_all_positions env.positionsRaw2))).map
            (orderEvent env.submitOk Phase.acquire)
      ++ [Event.runComplete])))) from by simp [List.append_assoc]]
  rw [attempts_append, attempts_append, attempts_append, attempts_append,
    attempts_append, attempts_map_orderEvent, attempts_map_orderEvent]
  have h1 : attempts [Event.selectDogs (runDogs env),
      Event.readPositions false (get_all_positions env.positionsRaw1)] = [] := rfl
  have h2 : attempts (if ¬ divestIntents (runDogs env)
      (get_all_positions env.positionsRaw1) = []
      then [Event.settlePause] else []) = [] := by
    split <;> rfl
  have h3 : attempts [Event.readPositions true
      (get_all_positions env.positionsRaw2)] = [] := rfl
  have h4 : attempts [Event.runComplete] = [] := rfl
  rw [h1, h2, h3, h4]
  simp

lemma rankLE_trans : ∀ (a b c : Symbol × ℚ),
    (fun a b : Symbol × ℚ => decide (b.2 ≤ a.2)) a b →
    (fun a b : Symbol × ℚ => decide (b.2 ≤ a.2)) b c →
    (fun a b : Symbol × ℚ => decide (b.2 ≤ a.2)) a c := by
  intro a b c hab hbc
  simp only [decide_eq_true_eq] at *
  exact le_trans hbc hab

lemma rankLE_total : ∀ (a b : Symbol × ℚ),
    (fun a b : Symbol × ℚ => decide (b.2 ≤ a.2)) a b
      || (fun a b : Symbol × ℚ => decide (b.2 ≤ a.2)) b a := by
  intro a b
  simp only [Bool.or_eq_true, decide_eq_true_eq]
  exact le_total b.2 a.2

lemma eventRank_orderEvent (ok : Symbol → ℤ → Side → Bool) (ph : Phase)
    (i : Intent) :
    eventRank (orderEvent ok ph i) = (match ph with
      | Phase.divest => 2
      | Phase.acquire => 5) := by
  unfold orderEvent
  cases place_order ok i.symbol i.qty i.side <;> cases ph <;> rfl

lemma rebalance_eq (env : BrokerEnv) :
    rebalance env =
      [Event.selectDogs (runDogs env),
        Event.readPositions false (get_all_positions env.positionsRaw1)]
      ++ divestEvents env ++ pauseEvents env
      ++ [Event.readPositions true (get_all_positions env.positionsRaw2)]
      ++ acquireEvents env ++ [Event.runComplete] := rfl

lemma orderEvent_ne_pause (ok : Symbol → ℤ → Side → Bool) (ph : Phase)
    (i : Intent) : orderEvent ok ph i ≠ Event.settlePause := by
  unfold orderEvent
  cases place_order ok i.symbol i.qty i.side <;> simp

lemma schedRun_some_spec : ∀ (polls : List Date) (last : ℤ),
    (polls.map Date.year).Pairwise (· ≤ ·) →
    (∀ p ∈ polls, last ≤ p.year) →
    List.Chain' (· < ·) (schedRun (some last) polls)
    ∧ ∀ z ∈ schedRun (some last) polls, last < z := by
  intro polls
  induction polls with
  | nil => intro last _ _; exact ⟨List.chain'_nil, by simp [schedRun]⟩
  | cons d ds ih =>
    intro last hmono hge
    rw [List.map_cons, List.pairwise_cons] at hmono
    have hges : ∀ p ∈ ds, d.year ≤ p.year := by
      intro p hp
      exact hmono.1 p.year (List.mem_map.mpr ⟨p, hp, rfl⟩)
    by_cases hc : is_rebalance_day d = true ∧ (some last : Option ℤ) ≠ some d.year
    · have hlast : last < d.year := by
        rcases lt_or_eq_of_le (hge d (List.mem_cons_self d ds)) with h | h
        · exact h
        · exact absurd (congrArg some h) hc.2
      rw [show schedRun (some last) (d :: ds)
          = d.year :: schedRun (some d.year) ds from by
        simp [schedRun, hc.1, hc.2]]
      obtain ⟨hchain, hgt⟩ := ih d.year hmono.2 hges
      refine ⟨List.chain'_cons'.mpr ⟨?_, hchain⟩, ?_⟩
      · intro z hz
        exact hgt z (List.mem_of_mem_head? hz)
      · intro z hz
        rcases List.mem_cons.mp hz with h | h
        · omega
        · have := hgt z h
          omega
    · have heq : schedRun (some last) (d :: ds) = schedRun (some last) ds := by
        simp only [schedRun]
        rw [if_neg hc]
      rw [heq]
      refine ih last hmono.2 ?_
      intro p hp
      exact hge p (List.mem_cons_of_mem d hp)

lemma schedRun_none_spec : ∀ (polls : List Date),
    (polls.map Date.year).Pairwise (· ≤ ·) →
    List.Chain' (· < ·) (schedRun none polls) := by
  intro polls
  induction polls with
  | nil => intro _; exact List.chain'_nil
  | cons d ds ih =>
    intro hmono
    rw [List.map_cons, List.pairwise_cons] at hmono
    have hges : ∀ p ∈ ds, d.year ≤ p.year := by
      intro p hp
      exact hmono.1 p.year (List.mem_map.mpr ⟨p, hp, rfl⟩)
    by_cases hc : is_rebalance_day d = true
    · rw [show schedRun none (d :: ds)
          = d.year :: schedRun (some d.year) ds from by
        simp [schedRun, hc]]
      obtain ⟨hchain, hgt⟩ := schedRun_some_spec ds d.year hmono.2 hges
      refine List.chain'_cons'.mpr ⟨?_, hchain⟩
      intro z hz
      exact hgt z (List.mem_of_mem_head? hz)
    · rw [show schedRun none (d :: ds) = schedRun none ds from by
        simp [schedRun, hc]]
      exact ih hmono.2


/-! Claim theorems -/

/-- C5: every symbol in the DogsList receives the same target dollar
allocation, exactly `TOTAL_PORTFOLIO_VALUE / N` with `N = 10` the configured
number of Dogs (the run's DogsList always has length 10), independent of its
yield rank, and the per-Dog allocations sum to the total capital in `N` equal
shares. -/
theorem equal_weight_allocation (env : BrokerEnv) :
    (runDogs env).length = 10
    ∧ target_per_stock (runDogs env) = TOTAL_PORTFOLIO_VALUE / 10
    ∧ ((runDogs env).map (fun _ => target_per_stock (runDogs env))).sum
        = TOTAL_PORTFOLIO_VALUE := by
  have hl := runDogs_length env
  refine ⟨hl, ?_, ?_⟩
  · rw [target_per_stock, hl]
    norm_num
  · rw [List.map_const', List.sum_replicate, hl, target_per_stock, hl]
    norm_num [TOTAL_PORTFOLIO_VALUE]

/-- C6: no order reaches the broker with quantity below 1 — `place_order`
drops any quantity `< 1` before submitting, every submitted order attempt in
a run's trace has quantity `≥ 1`, and the target-pass planner never produces
an intent of non-positive quantity. -/
theorem quantity_floor (env : BrokerEnv) :
    (∀ (ok : Symbol → ℤ → Side → Bool) (s : Symbol) (q : ℤ) (side : Side),
      q < 1 → place_order ok s q side = none)
    ∧ (∀ (ph : Phase) (i : Intent) (sub suc : Bool),
        Event.orderAttempt ph i sub suc ∈ rebalance env → sub = true →
          1 ≤ i.qty)
    ∧ (∀ (price : Symbol → Option ℚ) (tps : ℚ) (pos : List (Symbol × ℤ))
        (t : Symbol) (i : Intent),
        acquisitionPlan price tps pos t = some i → 0 < i.qty) := by
  refine ⟨?_, ?_, ?_⟩
  · intro ok s q side hq
    simp [place_order, hq]
  · intro ph i sub suc hmem hsub
    rcases orderAttempt_mem_rebalance hmem with ⟨j, _, he⟩ | ⟨j, _, he⟩ <;>
      · obtain ⟨-, hji, hq⟩ := orderEvent_inv he
        subst hji
        exact hq hsub
  · intro price tps pos t i h
    exact (acquisitionPlan_some h).2

/-- C4: for every Dog with an available price `p` the target share count is
`⌊(total_capital / N) / p⌋` (with `total_capital / N = 10000 / 10` here),
the diff is the target minus the post-divestment current quantity, a positive
diff yields a buy intent for `diff` shares, a negative diff a sell intent for
`|diff|` shares, a zero diff no intent; and with capital 1000, `N = 10` and
price 40 the target is 2 shares. -/
theorem acquisition_target_formula (env : BrokerEnv) (t : Symbol) (p : ℚ)
    (ht : t ∈ runDogs env) (hp : env.price t = some p) :
    target_per_stock (runDogs env) = TOTAL_PORTFOLIO_VALUE / 10
    ∧ (let tps := target_per_stock (runDogs env)
       let pos2 := get_all_positions env.positionsRaw2
       let target : ℤ := ⌊tps / p⌋
       let diff : ℤ := target - posQty pos2 t
       acquisitionPlan env.price tps pos2 t =
         if 0 < diff then some ⟨t, diff, Side.buy⟩
         else if diff < 0 then some ⟨t, -diff, Side.sell⟩
         else none)
    ∧ acquisitionPlan (fun _ => some 40) ((1000 : ℚ) / 10) [] "X"
        = some ⟨"X", 2, Side.buy⟩ := by
  refine ⟨(equal_weight_allocation env).2.1, ?_, ?_⟩
  · simp only [acquisitionPlan, hp]
  · have hfl : ⌊((1000 : ℚ)/10) / 40⌋ = 2 := by norm_num
    simp [acquisitionPlan, posQty, hfl]

/-- C10: position-read error containment is all-or-nothing — a failed
listing, or any one position whose quantity fails integer conversion,
degrades the entire position map to empty, so the run sells nothing in the
divestment pass and computes every acquisition diff as if nothing were
held. -/
theorem positions_error_containment (ps : List (Symbol × Option ℤ))
    (p : Symbol × Option ℤ) (hp : p ∈ ps) (h2 : p.2 = none) :
    get_all_positions none = []
    ∧ get_all_positions (some ps) = []
    ∧ (∀ dogs : List Symbol,
        divestIntents dogs (get_all_positions (some ps)) = [])
    ∧ (∀ t : Symbol, posQty (get_all_positions (some ps)) t = 0) := by
  have hall : ps.all (fun q => q.2.isSome) = false := by
    rw [List.all_eq_false]
    exact ⟨p, hp, by simp [h2]⟩
  have hempty : get_all_positions (some ps) = [] := by
    simp [get_all_positions, hall]
  exact ⟨rfl, hempty, fun dogs => by simp [hempty, divestIntents],
    fun t => by simp [hempty, posQty]⟩

theorem divestment_sells_in_full (env : BrokerEnv) (s : Symbol) (q : ℤ)
    (hmem : (s, q) ∈ get_all_positions env.positionsRaw1)
    (hnotdog : s ∉ runDogs env)
    (hnd : ((get_all_positions env.positionsRaw1).map Prod.fst).Nodup) :
    (divestIntents (runDogs env) (get_all_positions env.positionsRaw1)).filter
        (fun i => i.symbol = s) = [⟨s, q, Side.sell⟩]
    ∧ (∀ (ph : Phase) (i : Intent) (sub suc : Bool),
        Event.orderAttempt ph i sub suc ∈ rebalance env → i.symbol = s →
        ph = Phase.divest ∧ i = ⟨s, q, Side.sell⟩) := by
  have hfilter := divestIntents_filter_eq hmem hnotdog hnd
  refine ⟨hfilter, ?_⟩
  intro ph i sub suc hin hsym
  rcases orderAttempt_mem_rebalance hin with ⟨j, hj, he⟩ | ⟨j, hj, he⟩
  · obtain ⟨hph, hji, -⟩ := orderEvent_inv he
    subst hji
    have : i ∈ (divestIntents (runDogs env)
        (get_all_positions env.positionsRaw1)).filter
          (fun k => k.symbol = s) :=
      List.mem_filter.mpr ⟨hj, by simp [hsym]⟩
    rw [hfilter] at this
    exact ⟨hph, List.mem_singleton.mp this⟩
  · obtain ⟨hph, hji, -⟩ := orderEvent_inv he
    subst hji
    rw [List.mem_filterMap] at hj
    obtain ⟨d, hd, hplan⟩ := hj
    have := (acquisitionPlan_some hplan).1
    rw [hsym] at this
    exact absurd (this ▸ hd) hnotdog

theorem missing_price_skips_symbol (env : BrokerEnv) (z : Symbol)
    (hz : z ∈ runDogs env) (hp : env.price z = none) :
    (∀ (ph : Phase) (i : Intent) (sub suc : Bool),
        Event.orderAttempt ph i sub suc ∈ rebalance env → i.symbol ≠ z)
    ∧ (∀ d ∈ runDogs env, ∀ i : Intent,
        acquisitionPlan env.price (target_per_stock (runDogs env))
          (get_all_positions env.positionsRaw2) d = some i →
        orderEvent env.submitOk Phase.acquire i ∈ rebalance env)
    ∧ Event.runComplete ∈ rebalance env := by
  refine ⟨?_, ?_, ?_⟩
  · intro ph i sub suc hin hsym
    rcases orderAttempt_mem_rebalance hin with ⟨j, hj, he⟩ | ⟨j, hj, he⟩
    · obtain ⟨-, hji, -⟩ := orderEvent_inv he
      subst hji
      exact (divestIntents_mem hj).2.1 (hsym ▸ hz)
    · obtain ⟨-, hji, -⟩ := orderEvent_inv he
      subst hji
      rw [List.mem_filterMap] at hj
      obtain ⟨d, hd, hplan⟩ := hj
      have hsd := (acquisitionPlan_some hplan).1
      rw [hsym] at hsd
      subst hsd
      simp [acquisitionPlan, hp] at hplan
  · intro d hd i hplan
    unfold rebalance
    simp only [List.mem_append, List.mem_cons, List.mem_singleton,
      List.mem_map, List.not_mem_nil, or_false, or_assoc]
    refine Or.inr (Or.inr (Or.inr (Or.inr (Or.inr (Or.inl ?_)))))
    exact ⟨i, List.mem_filterMap.mpr ⟨d, hd, hplan⟩, rfl⟩
  · unfold rebalance
    simp

theorem submission_failure_containment (env : BrokerEnv)
    (ok1 ok2 : Symbol → ℤ → Side → Bool) :
    attempts (rebalance { env with submitOk := ok1 })
      = attempts (rebalance { env with submitOk := ok2 })
    ∧ (rebalance { env with submitOk := ok1 }).getLast?
        = some Event.runComplete := by
  constructor
  · rw [attempts_rebalance, attempts_rebalance]
    rfl
  · unfold rebalance
    exact List.getLast?_concat _

theorem dogs_selection_spec (yieldInfo : Symbol → Option ℚ) (n : ℕ)
    (tickers : List Symbol) (hnd : tickers.Nodup) :
    (get_dogs yieldInfo n tickers).length = min n tickers.length
    ∧ (∀ t ∈ tickers,
        (t, (yieldInfo t).getD 0) ∈ rankedByYield yieldInfo tickers)
    ∧ (rankedByYield yieldInfo tickers).Pairwise
        (fun a b => b.2 ≤ a.2)
    ∧ (∀ a b : Symbol × ℚ,
        List.Sublist [a, b] (get_dividend_yields yieldInfo tickers) →
        b.2 ≤ a.2 →
        List.Sublist [a, b] (rankedByYield yieldInfo tickers))
    ∧ get_dogs yiScenarioA 2 ["X", "Y", "Z"] = ["X", "Y"] := by
  refine ⟨?_, ?_, ?_, ?_, ?_⟩
  · simp [get_dogs, rankedByYield, get_dividend_yields]
  · intro t ht
    unfold rankedByYield
    rw [List.mem_mergeSort]
    exact List.mem_map.mpr ⟨t, ht, rfl⟩
  · have h := List.sorted_mergeSort rankLE_trans rankLE_total
      (get_dividend_yields yieldInfo tickers)
    unfold rankedByYield
    exact h.imp (fun hab => by simpa using hab)
  · intro a b hsub hba
    exact List.pair_sublist_mergeSort rankLE_trans rankLE_total
      (by simpa using hba) hsub
  · simp [get_dogs, rankedByYield, get_dividend_yields, yiScenarioA,
      List.mergeSort, List.merge, List.splitInTwo, List.splitAt,
      List.splitAt.go]
    norm_num [List.merge]

theorem run_phase_ordering (env : BrokerEnv) :
    (rebalance env).Pairwise (fun a b => eventRank a ≤ eventRank b)
    ∧ (∀ (i j : ℕ) (hi : i < (rebalance env).length)
        (hj : j < (rebalance env).length),
        eventRank ((rebalance env).get ⟨j, hj⟩)
          < eventRank ((rebalance env).get ⟨i, hi⟩) → j < i)
    ∧ (Event.settlePause ∈ rebalance env ↔
        divestIntents (runDogs env) (get_all_positions env.positionsRaw1)
          ≠ []) := by
  have hD : ∀ e ∈ divestEvents env, eventRank e = 2 := by
    intro e he
    obtain ⟨i, -, rfl⟩ := List.mem_map.mp he
    exact eventRank_orderEvent env.submitOk Phase.divest i
  have hA : ∀ e ∈ acquireEvents env, eventRank e = 5 := by
    intro e he
    obtain ⟨i, -, rfl⟩ := List.mem_map.mp he
    exact eventRank_orderEvent env.submitOk Phase.acquire i
  have hP : ∀ e ∈ pauseEvents env, eventRank e = 3 := by
    intro e he
    rw [mem_pauseList he]
    rfl
  have hB0 : ∀ e ∈ [Event.selectDogs (runDogs env),
      Event.readPositions false (get_all_positions env.positionsRaw1)],
      eventRank e ≤ 1 := by
    intro e he
    simp only [List.mem_cons, List.mem_singleton, List.not_mem_nil,
      or_false] at he
    rcases he with h | h <;> subst h <;> simp [eventRank]
  have P0 : List.Pairwise (fun a b => eventRank a ≤ eventRank b)
      [Event.selectDogs (runDogs env),
        Event.readPositions false (get_all_positions env.positionsRaw1)] := by
    simp [eventRank]
  have S1 := List.pairwise_append.mpr ⟨P0,
    List.pairwise_of_forall_mem_list
      (fun a ha b hb => by rw [hD a ha, hD b hb]),
    fun a ha b hb => by
      have := hB0 a ha
      rw [hD b hb]
      omega⟩
  have bound1 : ∀ a ∈ ([Event.selectDogs (runDogs env),
      Event.readPositions false (get_all_positions env.positionsRaw1)]
        ++ divestEvents env), eventRank a ≤ 2 := by
    intro a ha
    rcases List.mem_append.mp ha with h | h
    · exact (hB0 a h).trans (by omega)
    · rw [hD a h]
  have S2 := List.pairwise_append.mpr ⟨S1,
    List.pairwise_of_forall_mem_list
      (fun a ha b hb => by rw [hP a ha, hP b hb]),
    fun a ha b hb => by
      have := bound1 a ha
      rw [hP b hb]
      omega⟩
  have bound2 : ∀ a ∈ ([Event.selectDogs (runDogs env),
      Event.readPositions false (get_all_positions env.positionsRaw1)]
        ++ divestEvents env ++ pauseEvents env), eventRank a ≤ 3 := by
    intro a ha
    rcases List.mem_append.mp ha with h | h
    · exact (bound1 a h).trans (by omega)
    · rw [hP a h]
  have S3 := List.pairwise_append.mpr ⟨S2,
    List.pairwise_singleton _ _,
    fun a ha b hb => by
      rw [List.mem_singleton] at hb
      subst hb
      have := bound2 a ha
      have hr : eventRank (Event.readPositions true
          (get_all_positions env.positionsRaw2)) = 4 := rfl
      rw [hr]
      omega⟩
  have bound3 : ∀ a ∈ ([Event.selectDogs (runDogs env),
      Event.readPositions false (get_all_positions env.positionsRaw1)]
        ++ divestEvents env ++ pauseEvents env
        ++ [Event.readPositions true (get_all_positions env.positionsRaw2)]),
      eventRank a ≤ 4 := by
    intro a ha
    rcases List.mem_append.mp ha with h | h
    · exact (bound2 a h).trans (by omega)
    · rw [List.mem_singleton] at h
      subst h
      simp [eventRank]
  have S4 := List.pairwise_append.mpr ⟨S3,
    List.pairwise_of_forall_mem_list
      (fun a ha b hb => by rw [hA a ha, hA b hb]),
    fun a ha b hb => by
      have := bound3 a ha
      rw [hA b hb]
      omega⟩
  have bound4 : ∀ a ∈ ([Event.selectDogs (runDogs env),
      Event.readPositions false (get_all_positions env.positionsRaw1)]
        ++ divestEvents env ++ pauseEvents env
        ++ [Event.readPositions true (get_all_positions env.positionsRaw2)]
        ++ acquireEvents env), eventRank a ≤ 5 := by
    intro a ha
    rcases List.mem_append.mp ha with h | h
    · exact (bound3 a h).trans (by omega)
    · rw [hA a h]
  have S5 := List.pairwise_append.mpr ⟨S4,
    List.pairwise_singleton _ _,
    fun a ha b hb => by
      rw [List.mem_singleton] at hb
      subst hb
      have := bound4 a ha
      have hr : eventRank Event.runComplete = 6 := rfl
      rw [hr]
      omega⟩
  have hpw : (rebalance env).Pairwise
      (fun a b => eventRank a ≤ eventRank b) := by
    rw [rebalance_eq]
    exact S5
  refine ⟨hpw, ?_, ?_⟩
  · intro i j hi hj hlt
    by_contra hji
    push_neg at hji
    rcases eq_or_lt_of_le hji with heq | hlt2
    · subst heq
      exact lt_irrefl _ hlt
    · have hle := (List.pairwise_iff_get.mp hpw) ⟨i, hi⟩ ⟨j, hj⟩
        (Fin.mk_lt_mk.mpr hlt2)
      omega
  · by_cases hc : divestIntents (runDogs env)
        (get_all_positions env.positionsRaw1) = []
    · simp [rebalance, hc, orderEvent_ne_pause]
    · simp [rebalance, hc, orderEvent_ne_pause]

theorem pause_without_submission :
    Event.settlePause ∈ rebalance envLameDuck
    ∧ (rebalance envLameDuck).countP
        (fun e => match e with
          | Event.orderAttempt Phase.divest _ true _ => true
          | _ => false) = 0 := by
  constructor <;>
    simp [rebalance, runDogs, get_dogs, rankedByYield, get_dividend_yields,
      envLameDuck, DOW_30, List.mergeSort, List.merge, List.splitInTwo,
      List.splitAt, List.splitAt.go, divestIntents, get_all_positions,
      orderEvent, place_order, acquisitionPlan, target_per_stock,
      List.countP, List.countP.go]

theorem annual_rebalance_guard (force : Bool) (d0 : Date) (polls : List Date)
    (hmono : ((d0 :: polls).map Date.year).Pairwise (· ≤ ·)) :
    List.Chain' (· < ·) (mainTriggers force d0 polls)
    ∧ (∀ y : ℤ, (mainTriggers force d0 polls).count y ≤ 1)
    ∧ (force = true → (mainTriggers force d0 polls).count d0.year = 1)
    ∧ (∀ d1 d2 : Date, is_rebalance_day d1 = true →
        is_rebalance_day d2 = true → d1.year = d2.year →
        schedRun none [d1, d2] = [d1.year])
    ∧ (∀ d1 d2 : Date, is_rebalance_day d1 = true →
        is_rebalance_day d2 = true → d2.year = d1.year + 1 →
        schedRun none [d1, d2] = [d1.year, d2.year]) := by
  rw [List.map_cons, List.pairwise_cons] at hmono
  have hge : ∀ p ∈ polls, d0.year ≤ p.year := by
    intro p hp
    exact hmono.1 p.year (List.mem_map.mpr ⟨p, hp, rfl⟩)
  have hchain : List.Chain' (· < ·) (mainTriggers force d0 polls) := by
    unfold mainTriggers
    cases force with
    | true =>
      rw [if_pos rfl]
      obtain ⟨hc, hgt⟩ := schedRun_some_spec polls d0.year hmono.2 hge
      refine List.chain'_cons'.mpr ⟨?_, hc⟩
      intro z hz
      exact hgt z (List.mem_of_mem_head? hz)
    | false =>
      rw [if_neg (by simp)]
      exact schedRun_none_spec polls hmono.2
  have hnodup : (mainTriggers force d0 polls).Nodup :=
    (List.chain'_iff_pairwise.mp hchain).imp ne_of_lt
  refine ⟨hchain, fun y => List.nodup_iff_count_le_one.mp hnodup y, ?_, ?_, ?_⟩
  · intro hf
    subst hf
    unfold mainTriggers
    rw [if_pos rfl]
    obtain ⟨-, hgt⟩ := schedRun_some_spec polls d0.year hmono.2 hge
    rw [List.count_cons_self]
    have : (schedRun (some d0.year) polls).count d0.year = 0 :=
      List.count_eq_zero.mpr (fun hmem => lt_irrefl _ (hgt _ hmem))
    omega
  · intro d1 d2 h1 h2 hyy
    simp [schedRun, h1, h2, hyy]
  · intro d1 d2 h1 h2 hyy
    have hne : (some d1.year : Option ℤ) ≠ some d2.year := by
      simp only [ne_eq, Option.some.injEq]
      omega
    simp [schedRun, h1, h2, hyy, hne]

theorem dogs_selection_spec_witness :
    get_dogs yiScenarioA 2 ["X", "Y", "Z"] = ["X", "Y"]
    ∧ (get_dogs yiScenarioA 2 ["X", "Y", "Z"]).length = min 2 3 := by
  have h := dogs_selection_spec yiScenarioA 2 ["X", "Y", "Z"] (by decide)
  exact ⟨h.2.2.2.2, h.1⟩

theorem quantity_floor_witness :
    place_order (fun _ _ _ => true) "AAPL" 0 Side.buy = none :=
  (quantity_floor envTrivial).1 (fun _ _ _ => true) "AAPL" 0 Side.buy
    (by decide)

theorem acquisition_target_formula_witness :
    target_per_stock (runDogs envFlat) = TOTAL_PORTFOLIO_VALUE / 10
    ∧ acquisitionPlan (fun _ => some 40) ((1000 : ℚ) / 10) [] "X"
        = some ⟨"X", 2, Side.buy⟩ := by
  have hz : "AAPL" ∈ runDogs envFlat := by
    simp [runDogs, get_dogs, rankedByYield, get_dividend_yields, envFlat,
      DOW_30, List.mergeSort, List.merge, List.splitInTwo, List.splitAt,
      List.splitAt.go]
  have h := acquisition_target_formula envFlat "AAPL" 40 hz rfl
  exact ⟨h.1, h.2.2⟩

theorem positions_error_containment_witness :
    get_all_positions (some [("AAPL", (none : Option ℤ))]) = []
    ∧ get_all_positions none = [] := by
  have h := positions_error_containment [("AAPL", none)] ("AAPL", none)
    (by simp) rfl
  exact ⟨h.2.1, h.1⟩

theorem divestment_sells_in_full_witness :
    (divestIntents (runDogs envHoldsAAPL)
      (get_all_positions envHoldsAAPL.positionsRaw1)).filter
        (fun i => i.symbol = "AAPL") = [⟨"AAPL", 5, Side.sell⟩] := by
  have hmem : (("AAPL" : Symbol), (5 : ℤ))
      ∈ get_all_positions envHoldsAAPL.positionsRaw1 := by
    simp [envHoldsAAPL, get_all_positions]
  have hnotdog : ("AAPL" : Symbol) ∉ runDogs envHoldsAAPL := by
    simp [runDogs, get_dogs, rankedByYield, get_dividend_yields,
      envHoldsAAPL, DOW_30, List.mergeSort, List.merge, List.splitInTwo,
      List.splitAt, List.splitAt.go]
  have hnd : ((get_all_positions envHoldsAAPL.positionsRaw1).map
      Prod.fst).Nodup := by
    simp [envHoldsAAPL, get_all_positions]
  exact (divestment_sells_in_full envHoldsAAPL "AAPL" 5 hmem hnotdog hnd).1

theorem missing_price_skips_symbol_witness :
    Event.runComplete ∈ rebalance envTrivial := by
  have hz : "AAPL" ∈ runDogs envTrivial := by
    simp [runDogs, get_dogs, rankedByYield, get_dividend_yields, envTrivial,
      DOW_30, List.mergeSort, List.merge, List.splitInTwo, List.splitAt,
      List.splitAt.go]
  exact (missing_price_skips_symbol envTrivial "AAPL" hz rfl).2.2

theorem run_phase_ordering_witness :
    Event.settlePause ∈ rebalance envTrivial ↔
      divestIntents (runDogs envTrivial)
        (get_all_positions envTrivial.positionsRaw1) ≠ [] :=
  (run_phase_ordering envTrivial).2.2

theorem annual_rebalance_guard_witness :
    (mainTriggers true ⟨2024, 3, 15⟩ [⟨2025, 1, 3⟩]).count 2024 = 1 :=
  (annual_rebalance_guard true ⟨2024, 3, 15⟩ [⟨2025, 1, 3⟩]
    (by decide)).2.2.1 rfl

end DogsOfTheDow
